import Mathlib

/-!
# Verification of the format-catalog builder and download glue of a video downloader

This development is a shallow embedding, in Lean 4, of the pure logic of
`downloader.py` (class `YouTubeDownloader`): URL normalisation
(`fix_shorts_url`), filename sanitisation (`sanitize_filename`), the format
catalog builder (`extract_formats` together with `create_format_info`,
`is_valid_format`, `get_format_type`, `get_quality_value`,
`create_combined_formats`, `deduplicate_and_sort_formats`), the progress
reporter (`progress_hook`) and the download orchestrator (`download`).

Modelling conventions:
* Python dictionaries with optional keys become structures with `Option`
  fields; `dict.get(k, d)` becomes `Option.getD`, and a bare `dict[k]` access
  that can raise `KeyError` is modelled in the `Except String` monad.
* Python `int` becomes `Int`.  Python `float` arithmetic (only used to format
  transfer speeds, file sizes and the progress percentage) is modelled exactly
  over `ℚ`; the rounding of `round(x, 1)` and of the `"%.1f"` format is
  modelled as round-half-to-even over `ℚ`.
* Python strings are Lean `String`s; character-level operations
  (`str.split`, `str.strip`, `str.upper`, `re` character classes) are
  modelled on `List Char`.  `str.upper` is modelled by its ASCII case map
  (the source only ever compares the results against ASCII strings).
-/

/-! ## Character and string helpers -/

/-- ASCII case map of Python `str.upper` on a single character
(`chr(ord(c) - 32)` for `'a'..'z'`, identity otherwise). -/
def pyCharUpper (c : Char) : Char :=
  if h : 97 ≤ c.toNat ∧ c.toNat ≤ 122 then
    Char.ofNatAux (c.toNat - 32) (Or.inl (by omega))
  else c

/-- Model of Python `str.upper`. -/
def pyUpper (s : String) : String :=
  ⟨s.data.map pyCharUpper⟩

/-- Model of Python `str.split(sep)` for a one-character separator `sep`
(on the character list of the string).  Always returns a non-empty list of
segments; splitting `""` gives `[""]`, exactly as in Python. -/
def pySplit (sep : Char) : List Char → List (List Char)
  | [] => [[]]
  | c :: cs =>
    let r := pySplit sep cs
    if c = sep then [] :: r else (c :: r.headD []) :: r.tail

/-- Model of Python `str.strip()` (no argument): remove leading and trailing
whitespace characters. -/
def pyStrip (s : String) : String :=
  ⟨((s.data.dropWhile Char.isWhitespace).reverse.dropWhile Char.isWhitespace).reverse⟩

/-- Model of `os.path.basename` (POSIX): everything after the last `'/'`. -/
def pyBasename (s : String) : String :=
  ⟨(pySplit '/' s.data).getLastD []⟩

/-- The root part (`os.path.splitext(p)[0]`) of a POSIX path: the extension
starts at the last `'.'` of the final path component, unless that component
consists only of leading dots up to that position. -/
def pySplitextBase (p : List Char) : List Char :=
  let name := (pySplit '/' p).getLastD []
  let rest := name.dropWhile (fun c => c = '.')
  if rest.contains '.' then
    p.take (p.length - ((rest.reverse.takeWhile (fun c => c ≠ '.')).length + 1))
  else p

/-- Value of a run of ASCII digit characters, as in Python `int(...)`. -/
def digitsVal (ds : List Char) : Nat :=
  ds.foldl (fun a c => a * 10 + (c.toNat - 48)) 0

/-- Model of `re.search(r'(\d+)p', s)`, returning `int(match.group(1))` when
the search succeeds: the leftmost maximal digit run that is immediately
followed by a lowercase `'p'`.  (Backtracking inside `\d+` can never help,
since a shorter run would have to be followed by a digit, not `'p'`.) -/
def findDigitsP : List Char → Option Nat
  | [] => none
  | c :: cs =>
    if c.isDigit then
      match (c :: cs).dropWhile Char.isDigit with
      | 'p' :: _ => some (digitsVal ((c :: cs).takeWhile Char.isDigit))
      | _ => findDigitsP cs
    else findDigitsP cs

/-- Model of Python `str.startswith(pre)`, on the character lists. -/
def pyStartsWith (s pre : String) : Bool :=
  pre.data.isPrefixOf s.data

/-- Python substring test `small in big`. -/
def pyContains (big small : String) : Bool :=
  decide (small.data <:+: big.data)

/-! ## `fix_shorts_url` and `sanitize_filename` -/

/-- `YouTubeDownloader.fix_shorts_url`: rewrite a YouTube Shorts URL to a
regular watch URL (`url.split('/')[-1].split('?')[0]` as the video id);
identity on every other string. -/
def fix_shorts_url (url : String) : String :=
  if "youtube.com/shorts/".data <:+: url.data then
    let video_id := ((pySplit '/' url.data).getLastD [])
    let video_id := (pySplit '?' video_id).headD []
    "https://www.youtube.com/watch?v=" ++ ⟨video_id⟩
  else url

/-- The character class `[<>:"/\\|?*]` removed by `sanitize_filename`. -/
def forbiddenChars : List Char := ['<', '>', ':', '"', '/', '\\', '|', '?', '*']

/-- `YouTubeDownloader.sanitize_filename`: drop the forbidden characters,
truncate to 100 characters, then strip surrounding whitespace. -/
def sanitize_filename (filename : String) : String :=
  let filename : String := ⟨filename.data.filter (fun c => !forbiddenChars.contains c)⟩
  let filename := if filename.length > 100 then ⟨filename.data.take 100⟩ else filename
  pyStrip filename

/-! ## Rational models of the float formatting helpers -/

/-- Round half to even, the rounding used by CPython for `round(x, 1)` and
`"%.1f"` (modelled exactly over `ℚ`). -/
def rhe (q : ℚ) : Int :=
  let n := ⌊q⌋
  if q - n < 1/2 then n
  else if 1/2 < q - n then n + 1
  else if Even n then n else n + 1

/-- Model of Python `round(x, 1)`. -/
def roundTo1 (q : ℚ) : ℚ := (rhe (q * 10) : ℚ) / 10

/-- Model of the Python format `f"{x:.1f}"` over `ℚ`. -/
def fmt1 (q : ℚ) : String :=
  let sign := if q < 0 then "-" else ""
  let m := rhe (|q| * 10)
  sign ++ toString (m / 10) ++ "." ++ toString (m % 10)

/-- Auxiliary loop of `format_filesize`: divide by 1024 through the units. -/
def format_filesize_go (x : ℚ) : List String → String
  | [] => fmt1 x ++ " TB"
  | u :: us => if x < 1024 then fmt1 x ++ " " ++ u else format_filesize_go (x / 1024) us

/-- `YouTubeDownloader.format_filesize`: `"Unknown"` for a missing or falsy
(zero) size, otherwise the size scaled into `B`/`KB`/`MB`/`GB`/`TB` with one
decimal place. -/
def format_filesize (size_bytes : Option Int) : String :=
  match size_bytes with
  | none => "Unknown"
  | some n => if n = 0 then "Unknown" else format_filesize_go (n : ℚ) ["B", "KB", "MB", "GB"]

/-- `YouTubeDownloader.format_duration`: `"Unknown"` for a falsy duration,
otherwise `MM:SS`, or `HH:MM:SS` when at least one hour.  (Non-negative
durations; `%02d` zero-pads to two digits.) -/
def pad2 (n : Int) : String :=
  let s := toString n
  if s.length < 2 then "0" ++ s else s

/-- Model of `YouTubeDownloader.format_duration` for non-negative seconds. -/
def format_duration (seconds : Int) : String :=
  if seconds = 0 then "Unknown"
  else
    let hours := seconds / 3600
    let minutes := (seconds % 3600) / 60
    let secs := seconds % 60
    if hours > 0 then pad2 hours ++ ":" ++ pad2 minutes ++ ":" ++ pad2 secs
    else pad2 minutes ++ ":" ++ pad2 secs

/-! ## The data model of the catalog builder -/

/-- A raw stream descriptor as handed over by the extraction engine
(one entry of `info['formats']`).  Every key the source ever reads is
modelled; a missing key is `none`. -/
structure RawFormat where
  format_id : Option String := none
  ext : Option String := none
  format_note : Option String := none
  height : Option Int := none
  abr : Option Int := none
  acodec : Option String := none
  vcodec : Option String := none
  filesize : Option Int := none
deriving DecidableEq, Repr

/-- Python truthiness of the raw descriptor dictionary (`and format_dict`):
the dictionary is falsy only when empty. -/
def rawTruthy (f : RawFormat) : Bool :=
  f.format_id.isSome || f.ext.isSome || f.format_note.isSome || f.height.isSome ||
  f.abr.isSome || f.acodec.isSome || f.vcodec.isSome || f.filesize.isSome

/-- A standardized catalog entry (the dictionaries built by
`create_format_info` and the literal sentinel dictionaries).  The sentinel
dictionaries carry no `has_audio`/`has_video`/`abr` keys, hence those fields
are `Option`s defaulting to `none`; `create_format_info` never stores an
`abr` key at all. -/
structure FormatInfo where
  format_id : String
  ext : String
  resolution : String
  filesize : String
  type : String
  quality : Int
  has_audio : Option Bool := none
  has_video : Option Bool := none
  abr : Option Int := none
deriving DecidableEq, Repr

/-- The deduplication key `(resolution, type, quality)`. -/
def fkey (f : FormatInfo) : String × String × Int := (f.resolution, f.type, f.quality)

/-! ## The catalog builder -/

/-- `YouTubeDownloader.get_format_type`: classification from codec presence.
`format_dict.get('vcodec') != 'none'` is true also when the key is missing. -/
def get_format_type (format_dict : RawFormat) : String :=
  let has_video := format_dict.vcodec ≠ some "none"
  let has_audio := format_dict.acodec ≠ some "none"
  if has_video ∧ has_audio then "video+audio"
  else if has_video then "video"
  else if has_audio then "audio"
  else "unknown"

/-- The fixed resolution table of `get_quality_value`. -/
def resolution_map (s : String) : Option Int :=
  if s = "144P" then some 144 else if s = "240P" then some 240
  else if s = "360P" then some 360 else if s = "480P" then some 480
  else if s = "720P" then some 720 else if s = "1080P" then some 1080
  else if s = "1440P" then some 1440 else if s = "2160P" then some 2160
  else if s = "4320P" then some 4320 else if s = "4K" then some 2160
  else if s = "2K" then some 1440 else if s = "BEST" then some 10000
  else if s = "N/A" then some 0 else if s = "MP3 AUDIO (192KBPS)" then some 1
  else none

/-- `YouTubeDownloader.get_quality_value`: table lookup on the uppercased
label, then the (dead, see `findDigitsP`) regex extraction, then the raw
height as a final fallback (guarded by the truthiness of the dictionary and
of the height). -/
def get_quality_value (resolution : String) (format_dict : RawFormat) : Int :=
  let resolution_upper := pyUpper resolution
  let quality := (resolution_map resolution_upper).getD 0
  let quality :=
    if quality = 0 then
      match findDigitsP resolution_upper.data with
      | some n => (n : Int)
      | none => quality
    else quality
  if quality = 0 ∧ rawTruthy format_dict ∧ format_dict.height.getD 0 ≠ 0 then
    format_dict.height.getD 0
  else quality

/-- `YouTubeDownloader.create_format_info`.  Returns `none` for storyboard
descriptors; accessing the mandatory `format_dict['format_id']` raises
`KeyError` (modelled as `Except.error`) when the key is missing. -/
def create_format_info (format_dict : RawFormat) : Except String (Option FormatInfo) :=
  let format_note := format_dict.format_note.getD "unknown"
  let format_note :=
    if format_note = "unknown" ∧ format_dict.height.getD 0 ≠ 0 then
      toString (format_dict.height.getD 0) ++ "p"
    else format_note
  if pyStartsWith (format_dict.format_id.getD "") "sb" then .ok none
  else
    let height := format_dict.height.getD 0
    let format_note :=
      if height ≥ 2160 then toString height ++ "p (4K)"
      else if height ≥ 1440 then toString height ++ "p (2K)"
      else format_note
    match format_dict.format_id with
    | none => .error "format_id"
    | some fid =>
      .ok (some {
        format_id := fid
        ext := format_dict.ext.getD "mp4"
        resolution := if format_note ≠ "unknown" then pyUpper format_note else "N/A"
        filesize := format_filesize format_dict.filesize
        type := get_format_type format_dict
        quality := get_quality_value format_note format_dict
        has_audio := some (format_dict.acodec ≠ some "none")
        has_video := some (format_dict.vcodec ≠ some "none") })

/-- `YouTubeDownloader.is_valid_format`.  The `has_video`/`has_audio` keys are
always present on the entries this is called on; `format_info.get('abr', 0)`
reads an `abr` key that `create_format_info` never stores. -/
def is_valid_format (format_info : FormatInfo) : Bool :=
  if !(format_info.has_video.getD false) && !(format_info.has_audio.getD false) then false
  else if format_info.type == "audio" && format_info.abr.getD 0 < 50 then false
  else true

/-- The per-descriptor loop of `extract_formats`: build each entry and keep
the valid ones; the first `KeyError` aborts the whole build. -/
def processFormats : List RawFormat → Except String (List FormatInfo)
  | [] => .ok []
  | f :: fs =>
    match create_format_info f with
    | .error e => .error e
    | .ok format_info =>
      match processFormats fs with
      | .error e => .error e
      | .ok rest =>
        match format_info with
        | some x => if is_valid_format x then .ok (x :: rest) else .ok rest
        | none => .ok rest

/-- Stable insertion (descending by `key`) modelling the placement of one
element by Python's stable `list.sort(key=..., reverse=True)`. -/
def pyInsertDesc (key : α → Int) (x : α) : List α → List α
  | [] => [x]
  | y :: ys => if key x > key y then x :: y :: ys else y :: pyInsertDesc key x ys

/-- Model of Python's stable `list.sort(key=..., reverse=True)`: the unique
stable descending reordering, realised as an insertion sort. -/
def pySortDesc (key : α → Int) (l : List α) : List α :=
  l.foldl (fun acc x => pyInsertDesc key x acc) []

/-- The always-appended `4K ULTRA` combined sentinel entry. -/
def ultra4k_format : FormatInfo :=
  { format_id := "bestvideo[height>=2160]+bestaudio/best[height>=2160]"
    ext := "mp4", resolution := "4K ULTRA (+AUDIO)", filesize := "Unknown"
    type := "video+audio", quality := 5000 }

/-- The combined `"{id}+bestaudio"` entry synthesized from a video-only
descriptor with the given format id and height. -/
def combinedEntry (fid : String) (height : Int) : FormatInfo :=
  { format_id := fid ++ "+bestaudio", ext := "mp4"
    resolution := toString height ++ "p (+AUDIO)", filesize := "Unknown"
    type := "video+audio", quality := height + 1000 }

/-- The loop of `create_combined_formats` over the (height-sorted) video-only
descriptors: one `"{id}+bestaudio"` entry per descriptor with height ≥ 360;
`video_fmt['format_id']` raises when the key is missing. -/
def combineVideos : List RawFormat → Except String (List FormatInfo)
  | [] => .ok []
  | v :: vs =>
    let height := v.height.getD 0
    if height ≥ 360 then
      match v.format_id with
      | none => .error "format_id"
      | some fid =>
        match combineVideos vs with
        | .error e => .error e
        | .ok rest => .ok (combinedEntry fid height :: rest)
    else combineVideos vs

/-- `YouTubeDownloader.create_combined_formats`: filter the video-only
descriptors, sort them by height (stable, descending), synthesize one
combined entry per descriptor with height ≥ 360, and append the fixed
`4K ULTRA` entry. -/
def create_combined_formats (all_formats : List RawFormat) : Except String (List FormatInfo) :=
  let video_formats := all_formats.filter
    (fun f => f.vcodec != some "none" && f.acodec == some "none")
  let video_formats := pySortDesc (fun f => f.height.getD 0) video_formats
  match combineVideos video_formats with
  | .error e => .error e
  | .ok combined => .ok (combined ++ [ultra4k_format])

/-- The fixed `mp3` sentinel entry seeded first into every catalog. -/
def mp3_format : FormatInfo :=
  { format_id := "mp3", ext := "mp3", resolution := "MP3 Audio (192kbps)"
    filesize := "Unknown", type := "audio", quality := 1 }

/-- The four fixed engine-native auto-selection entries. -/
def auto_formats : List FormatInfo :=
  [ { format_id := "best", ext := "mp4", resolution := "BEST (Auto Select)"
      filesize := "Unknown", type := "video+audio", quality := 10000 },
    { format_id := "bestvideo+bestaudio", ext := "mp4"
      resolution := "BEST VIDEO + BEST AUDIO (4K Ready)", filesize := "Unknown"
      type := "video+audio", quality := 15000 },
    { format_id := "bestvideo[height<=1080]+bestaudio/best[height<=1080]", ext := "mp4"
      resolution := "1080p MAX (Auto Merge)", filesize := "Unknown"
      type := "video+audio", quality := 1080 },
    { format_id := "bestvideo[height<=2160]+bestaudio/best[height<=2160]", ext := "mp4"
      resolution := "4K MAX (Auto Merge)", filesize := "Unknown"
      type := "video+audio", quality := 2160 } ]

/-- The dedup loop of `deduplicate_and_sort_formats` with its `seen` set of
`(resolution, type, quality)` keys: keep the first occurrence of each key. -/
def dedupAux (seen : List (String × String × Int)) : List FormatInfo → List FormatInfo
  | [] => []
  | f :: fs =>
    if fkey f ∈ seen then dedupAux seen fs
    else f :: dedupAux (fkey f :: seen) fs

/-- First-occurrence deduplication by `fkey`, starting from an empty `seen`. -/
def dedupFormats (formats : List FormatInfo) : List FormatInfo := dedupAux [] formats

/-- `YouTubeDownloader.deduplicate_and_sort_formats`: drop duplicate
`(resolution, type, quality)` keys keeping the first occurrence, then sort by
quality, highest first (stable). -/
def deduplicate_and_sort_formats (formats : List FormatInfo) : List FormatInfo :=
  pySortDesc (fun f : FormatInfo => f.quality) (dedupFormats formats)

/-- The catalog list of `extract_formats` as constructed, before
deduplication and sorting: the `mp3` sentinel, the per-descriptor entries,
the combined entries, and the auto entries, in that order. -/
def assembleFormats (info_formats : List RawFormat) : Except String (List FormatInfo) :=
  match processFormats info_formats with
  | .error e => .error e
  | .ok per_format =>
    match create_combined_formats info_formats with
    | .error e => .error e
    | .ok combined => .ok (mp3_format :: (per_format ++ (combined ++ auto_formats)))

/-- `YouTubeDownloader.extract_formats`, as a function of `info['formats']`:
assemble all entries, then deduplicate and sort. -/
def extract_formats (info_formats : List RawFormat) : Except String (List FormatInfo) :=
  match assembleFormats info_formats with
  | .error e => .error e
  | .ok formats => .ok (deduplicate_and_sort_formats formats)

/-! ## The progress reporter -/

/-- A raw progress payload as delivered by the engine to `progress_hook`.
`d['status']` is a mandatory key (the engine always sets it); every other
key may be missing. -/
structure RawProgress where
  status : String
  total_bytes : Option Int := none
  total_bytes_estimate : Option Int := none
  downloaded_bytes : Option Int := none
  speed : Option ℚ := none
  eta : Option Int := none
  filename : Option String := none
deriving DecidableEq, Repr

/-- A normalized progress record, as put into the `progress_info`
dictionaries of `progress_hook`. -/
structure ProgressEvent where
  status : String
  percent : ℚ
  speed : String
  eta : String
  filesize : String
  filename : String
  message : String
deriving DecidableEq, Repr

/-- Python `a or b` on an optional number `a` (used for
`d.get('total_bytes') or d.get('total_bytes_estimate', 0)`): the left value
when it is present and non-zero, the right value otherwise. -/
def pyOrInt (a : Option Int) (b : Int) : Int :=
  match a with
  | some t => if t = 0 then b else t
  | none => b

/-- `YouTubeDownloader.progress_hook`, as the event forwarded to the observer
(`none` when the raw status is neither `downloading` nor `finished`, or —
equivalently for our claims — when no observer is registered). -/
def progress_hook (d : RawProgress) : Option ProgressEvent :=
  if d.status = "downloading" then
    let total_bytes := pyOrInt d.total_bytes (d.total_bytes_estimate.getD 0)
    let downloaded_bytes := d.downloaded_bytes.getD 0
    let percent : ℚ := if total_bytes > 0 then (downloaded_bytes : ℚ) / (total_bytes : ℚ) * 100 else 0
    let speed := d.speed.getD 0
    let eta := d.eta.getD 0
    some {
      status := "downloading"
      percent := roundTo1 percent
      speed := if speed ≠ 0 then fmt1 (speed / 1024 / 1024) ++ " MB/s" else "0 MB/s"
      eta := if eta ≠ 0 then toString eta ++ " seconds" else "Unknown"
      filesize := format_filesize (some total_bytes)
      filename := pyBasename (d.filename.getD "")
      message := "Downloading..." }
  else if d.status = "finished" then
    some {
      status := "completed"
      percent := 100
      speed := "0 MB/s"
      eta := "0 seconds"
      filesize := format_filesize (some (d.total_bytes.getD 0))
      filename := pyBasename (d.filename.getD "")
      message := "Download completed!" }
  else none

/-! ## The download orchestrator -/

/-- The two-key dictionary `{'status': ..., 'message': ...}` delivered to the
observer from the `except` branch of `download`. -/
structure CallbackPayload where
  status : String
  message : String
deriving DecidableEq, Repr

/-- `YouTubeDownloader.download`, with the external engine call
(`ydl.extract_info(url, download=True)` followed by
`ydl.prepare_filename(info)`) abstracted as a function from the normalised
URL to either the predicted filename or the message of a raised exception,
and the filesystem probing (`os.path.exists`) abstracted as a predicate.
Returns the resolved file path (or `none`, the error result) together with
the payloads the `download` body itself delivers to the observer (only the
`except` branch delivers one, and only when a callback is registered). -/
def download (engine : String → Except String String) (fsExists : String → Bool)
    (url format_id download_type : String) (hasCallback : Bool) :
    Option String × List CallbackPayload :=
  let url := fix_shorts_url url
  match engine url with
  | .error e =>
    (none, if hasCallback then [{ status := "error", message := "Download failed: " ++ e }] else [])
  | .ok filename =>
    if download_type = "audio" ∨ format_id = "mp3" then
      let mp3_file := String.mk (pySplitextBase filename.data) ++ ".mp3"
      if fsExists mp3_file then (some mp3_file, []) else (some filename, [])
    else
      if fsExists filename then (some filename, [])
      else
        let base_name := String.mk (pySplitextBase filename.data)
        match [".mp4", ".mkv", ".webm", ".m4a"].find? (fun ext => fsExists (base_name ++ ext)) with
        | some ext => (some (base_name ++ ext), [])
        | none => (none, [])

/-! ## Concrete inputs used to evaluate the model -/

/-- A pure-audio descriptor with a healthy audio bitrate (128 kbps). -/
def audioRaw140 : RawFormat :=
  { format_id := some "140", ext := some "m4a", abr := some 128
    acodec := some "mp4a.40.2", vcodec := some "none" }

/-- A descriptor whose mandatory `format_id` key is missing. -/
def noIdRaw : RawFormat :=
  { ext := some "mp4", height := some 720, vcodec := some "avc1", acodec := some "none" }

/-- A perfectly ordinary progressive descriptor. -/
def goodRaw22 : RawFormat :=
  { format_id := some "22", ext := some "mp4", height := some 720
    vcodec := some "avc1", acodec := some "mp4a" }

/-- First of two video-only descriptors sharing height 720. -/
def videoRawA : RawFormat :=
  { format_id := some "1", ext := some "mp4", height := some 720
    vcodec := some "avc1", acodec := some "none" }

/-- Second of two video-only descriptors sharing height 720. -/
def videoRawB : RawFormat :=
  { format_id := some "2", ext := some "webm", height := some 720
    vcodec := some "vp9", acodec := some "none" }

/-- The 4K video-only descriptor of the `"337"` scenario. -/
def raw337 : RawFormat :=
  { format_id := some "337", ext := some "webm", height := some 2160
    vcodec := some "vp9.2", acodec := some "none" }

/-- The catalog produced from an empty raw descriptor list: exactly the fixed
sentinel entries, sorted by quality descending. -/
def sentinelCatalog : List FormatInfo :=
  [ { format_id := "bestvideo+bestaudio", ext := "mp4"
      resolution := "BEST VIDEO + BEST AUDIO (4K Ready)", filesize := "Unknown"
      type := "video+audio", quality := 15000 },
    { format_id := "best", ext := "mp4", resolution := "BEST (Auto Select)"
      filesize := "Unknown", type := "video+audio", quality := 10000 },
    ultra4k_format,
    { format_id := "bestvideo[height<=2160]+bestaudio/best[height<=2160]", ext := "mp4"
      resolution := "4K MAX (Auto Merge)", filesize := "Unknown"
      type := "video+audio", quality := 2160 },
    { format_id := "bestvideo[height<=1080]+bestaudio/best[height<=1080]", ext := "mp4"
      resolution := "1080p MAX (Auto Merge)", filesize := "Unknown"
      type := "video+audio", quality := 1080 },
    mp3_format ]

/-- A raw progress payload reporting more bytes downloaded than the total. -/
def overshootProgress : RawProgress :=
  { status := "downloading", total_bytes := some 100, downloaded_bytes := some 200 }

/-- A raw progress payload for a finished download. -/
def finishedProgress : RawProgress := { status := "finished" }

/-- The event emitted for `finishedProgress`. -/
def finishedEvent : ProgressEvent :=
  { status := "completed", percent := 100, speed := "0 MB/s", eta := "0 seconds"
    filesize := "Unknown", filename := "", message := "Download completed!" }

/-- The catalog produced from `[raw337]`. -/
def cat337 : List FormatInfo :=
  [ { format_id := "bestvideo+bestaudio", ext := "mp4"
      resolution := "BEST VIDEO + BEST AUDIO (4K Ready)", filesize := "Unknown"
      type := "video+audio", quality := 15000 },
    { format_id := "best", ext := "mp4", resolution := "BEST (Auto Select)"
      filesize := "Unknown", type := "video+audio", quality := 10000 },
    ultra4k_format,
    combinedEntry "337" 2160,
    { format_id := "337", ext := "webm", resolution := "2160P (4K)"
      filesize := "Unknown", type := "video", quality := 2160
      has_audio := some false, has_video := some true },
    { format_id := "bestvideo[height<=2160]+bestaudio/best[height<=2160]", ext := "mp4"
      resolution := "4K MAX (Auto Merge)", filesize := "Unknown"
      type := "video+audio", quality := 2160 },
    { format_id := "bestvideo[height<=1080]+bestaudio/best[height<=1080]", ext := "mp4"
      resolution := "1080p MAX (Auto Merge)", filesize := "Unknown"
      type := "video+audio", quality := 1080 },
    mp3_format ]

open scoped List

/-! ## Helper lemmas: the stable descending sort -/

theorem pyInsertDesc_perm (key : α → Int) (x : α) (l : List α) :
    pyInsertDesc key x l ~ x :: l := by
  induction l with
  | nil => rfl
  | cons y ys ih =>
    simp only [pyInsertDesc]
    split
    · rfl
    · exact (ih.cons y).trans (List.Perm.swap x y ys)

theorem pyInsertDesc_sorted (key : α → Int) (x : α) (l : List α)
    (h : l.Pairwise (fun a b => key b ≤ key a)) :
    (pyInsertDesc key x l).Pairwise (fun a b => key b ≤ key a) := by
  induction l with
  | nil => simp [pyInsertDesc]
  | cons y ys ih =>
    rw [List.pairwise_cons] at h
    simp only [pyInsertDesc]
    split
    · rename_i hgt
      refine List.pairwise_cons.2 ⟨?_, List.pairwise_cons.2 h⟩
      intro b hb
      simp only [List.mem_cons] at hb
      rcases hb with rfl | hb
      · omega
      · have := h.1 b hb; omega
    · rename_i hle
      refine List.pairwise_cons.2 ⟨?_, ih h.2⟩
      intro b hb
      have hb' := (pyInsertDesc_perm key x ys).mem_iff.1 hb
      simp only [List.mem_cons] at hb'
      rcases hb' with rfl | hb'
      · omega
      · exact h.1 b hb'

theorem pySortDesc_append_singleton (key : α → Int) (l : List α) (x : α) :
    pySortDesc key (l ++ [x]) = pyInsertDesc key x (pySortDesc key l) := by
  simp [pySortDesc, List.foldl_append]

theorem pySortDesc_perm (key : α → Int) (l : List α) : pySortDesc key l ~ l := by
  induction l using List.reverseRecOn with
  | nil => rfl
  | append_singleton l x ih =>
    rw [pySortDesc_append_singleton]
    calc pyInsertDesc key x (pySortDesc key l)
        ~ x :: pySortDesc key l := pyInsertDesc_perm key x _
      _ ~ x :: l := ih.cons x
      _ ~ l ++ [x] := (List.perm_append_singleton x l).symm

theorem pySortDesc_sorted (key : α → Int) (l : List α) :
    (pySortDesc key l).Pairwise (fun a b => key b ≤ key a) := by
  induction l using List.reverseRecOn with
  | nil => simp [pySortDesc]
  | append_singleton l x ih =>
    rw [pySortDesc_append_singleton]
    exact pyInsertDesc_sorted key x _ ih

theorem pyInsertDesc_filter_ne (key : α → Int) (x : α) (l : List α) (q : Int)
    (hx : key x ≠ q) :
    (pyInsertDesc key x l).filter (fun a => key a == q)
      = l.filter (fun a => key a == q) := by
  induction l with
  | nil => simp [pyInsertDesc, hx]
  | cons y ys ih =>
    simp only [pyInsertDesc]
    split
    · simp [List.filter_cons, hx]
    · simp only [List.filter_cons]
      split <;> simp [ih]

theorem pyInsertDesc_filter_eq (key : α → Int) (x : α) (l : List α) (q : Int)
    (h : l.Pairwise (fun a b => key b ≤ key a)) (hx : key x = q) :
    (pyInsertDesc key x l).filter (fun a => key a == q)
      = l.filter (fun a => key a == q) ++ [x] := by
  induction l with
  | nil => simp [pyInsertDesc, hx]
  | cons y ys ih =>
    rw [List.pairwise_cons] at h
    simp only [pyInsertDesc]
    split
    · rename_i hgt
      have hnil : (y :: ys).filter (fun a => key a == q) = [] := by
        rw [List.filter_eq_nil_iff]
        intro a ha
        simp only [List.mem_cons] at ha
        have : key a ≤ key y := by
          rcases ha with rfl | ha
          · exact le_rfl
          · exact h.1 a ha
        simp only [beq_iff_eq]
        omega
      rw [List.filter_cons_of_pos (by simp [hx]), hnil]
      simp
    · rename_i hle
      simp only [List.filter_cons]
      split <;> simp [ih h.2]

theorem pySortDesc_filter (key : α → Int) (l : List α) (q : Int) :
    (pySortDesc key l).filter (fun a => key a == q) = l.filter (fun a => key a == q) := by
  induction l using List.reverseRecOn with
  | nil => rfl
  | append_singleton l x ih =>
    rw [pySortDesc_append_singleton]
    by_cases hx : key x = q
    · rw [pyInsertDesc_filter_eq key x _ q (pySortDesc_sorted key l) hx, ih,
        List.filter_append, List.filter_cons_of_pos (by simp [hx])]
      simp
    · rw [pyInsertDesc_filter_ne key x _ q hx, ih, List.filter_append,
        List.filter_cons_of_neg (by simp [hx])]
      simp

/-! ## Helper lemmas: first-occurrence deduplication -/

theorem dedupAux_sublist (seen : List (String × String × Int)) (l : List FormatInfo) :
    dedupAux seen l <+ l := by
  induction l generalizing seen with
  | nil => simp [dedupAux]
  | cons f fs ih =>
    simp only [dedupAux]
    split
    · exact (ih seen).trans (List.sublist_cons_self f fs)
    · exact (ih (fkey f :: seen)).cons₂ f

theorem mem_of_mem_dedupAux {seen : List (String × String × Int)} {l : List FormatInfo}
    {g : FormatInfo} (h : g ∈ dedupAux seen l) : g ∈ l :=
  (dedupAux_sublist seen l).mem h

theorem mem_dedupAux_not_seen {seen : List (String × String × Int)} {l : List FormatInfo}
    {g : FormatInfo} (h : g ∈ dedupAux seen l) : fkey g ∉ seen := by
  induction l generalizing seen with
  | nil => simp [dedupAux] at h
  | cons f fs ih =>
    simp only [dedupAux] at h
    split at h
    · exact ih h
    · rcases List.mem_cons.1 h with rfl | h
      · assumption
      · have := ih h
        intro hmem
        exact this (List.mem_cons_of_mem _ hmem)

theorem dedupAux_find? {seen : List (String × String × Int)} {l : List FormatInfo}
    {g : FormatInfo} (h : g ∈ dedupAux seen l) :
    l.find? (fun x => fkey x == fkey g) = some g := by
  induction l generalizing seen with
  | nil => simp [dedupAux] at h
  | cons f fs ih =>
    simp only [dedupAux] at h
    split at h
    · rename_i hseen
      have hne : fkey f ≠ fkey g := by
        intro he
        exact mem_dedupAux_not_seen h (he ▸ hseen)
      rw [List.find?_cons_of_neg _ (by simp [hne]), ih h]
    · rename_i hseen
      rcases List.mem_cons.1 h with rfl | h
      · rw [List.find?_cons_of_pos _ (by simp)]
      · have hg := mem_dedupAux_not_seen h
        have hne : fkey f ≠ fkey g := by
          intro he
          exact hg (he ▸ List.mem_cons_self _ _)
        rw [List.find?_cons_of_neg _ (by simp [hne]), ih h]

theorem dedupAux_pairwise (seen : List (String × String × Int)) (l : List FormatInfo) :
    (dedupAux seen l).Pairwise (fun a b => fkey a ≠ fkey b) := by
  induction l generalizing seen with
  | nil => simp [dedupAux]
  | cons f fs ih =>
    simp only [dedupAux]
    split
    · exact ih seen
    · refine List.pairwise_cons.2 ⟨?_, ih (fkey f :: seen)⟩
      intro b hb he
      exact mem_dedupAux_not_seen hb (he ▸ List.mem_cons_self _ _)

theorem dedupAux_key_covered {l : List FormatInfo} {f : FormatInfo}
    (h : f ∈ l) (seen : List (String × String × Int)) :
    fkey f ∈ seen ∨ ∃ g ∈ dedupAux seen l, fkey g = fkey f := by
  induction l generalizing seen with
  | nil => simp at h
  | cons x xs ih =>
    simp only [dedupAux]
    rcases List.mem_cons.1 h with rfl | h
    · by_cases hx : fkey f ∈ seen
      · exact Or.inl hx
      · refine Or.inr ⟨f, ?_, rfl⟩
        rw [if_neg hx]
        exact List.mem_cons_self _ _
    · by_cases hx : fkey x ∈ seen
      · rw [if_pos hx]
        exact ih h seen
      · rw [if_neg hx]
        rcases ih h (fkey x :: seen) with hin | ⟨g, hg, hk⟩
        · rcases List.mem_cons.1 hin with he | hin
          · exact Or.inr ⟨x, List.mem_cons_self _ _, he.symm⟩
          · exact Or.inl hin
        · exact Or.inr ⟨g, List.mem_cons_of_mem _ hg, hk⟩

/-! ## Helper lemmas: `pySplit` -/

theorem pySplit_ne_nil (sep : Char) (l : List Char) : pySplit sep l ≠ [] := by
  cases l with
  | nil => simp [pySplit]
  | cons c cs =>
    simp only [pySplit]
    split <;> simp

theorem pySplit_no_sep {sep : Char} {l : List Char} (h : sep ∉ l) :
    pySplit sep l = [l] := by
  induction l with
  | nil => rfl
  | cons c cs ih =>
    simp only [List.mem_cons, not_or] at h
    simp only [pySplit]
    rw [if_neg (fun he => h.1 he.symm), ih h.2]
    rfl

theorem pySplit_length_ge_two {sep : Char} {l : List Char} (h : sep ∈ l) :
    2 ≤ (pySplit sep l).length := by
  induction l with
  | nil => simp at h
  | cons c cs ih =>
    simp only [pySplit]
    split
    · have := List.length_pos.2 (pySplit_ne_nil sep cs)
      simp only [List.length_cons]
      omega
    · rename_i hne
      have hcs : sep ∈ cs := by
        rcases List.mem_cons.1 h with rfl | h
        · exact absurd rfl hne
        · exact h
      have h2 := ih hcs
      have h1 := List.length_pos.2 (pySplit_ne_nil sep cs)
      simp only [List.length_cons, List.length_tail]
      omega

theorem getLastD_irrel {l : List α} (h : l ≠ []) (d d' : α) :
    l.getLastD d = l.getLastD d' := by
  cases l with
  | nil => exact absurd rfl h
  | cons a t => rw [List.getLastD_cons, List.getLastD_cons]

theorem pySplit_getLastD {sep : Char} (xs : List Char) {ys : List Char} (h : sep ∉ ys) :
    (pySplit sep (xs ++ sep :: ys)).getLastD [] = ys := by
  induction xs with
  | nil =>
    simp only [List.nil_append, pySplit, if_pos rfl]
    rw [pySplit_no_sep h]
    rfl
  | cons c xs ih =>
    simp only [List.cons_append, pySplit, List.append_eq]
    split
    · rw [List.getLastD_cons]
      rw [getLastD_irrel (pySplit_ne_nil sep (xs ++ sep :: ys)) _ []]
      exact ih
    · have h2 : 2 ≤ (pySplit sep (xs ++ sep :: ys)).length := by
        exact pySplit_length_ge_two (by simp)
      obtain ⟨a, t, ht⟩ : ∃ a t, pySplit sep (xs ++ sep :: ys) = a :: t := by
        cases hr : pySplit sep (xs ++ sep :: ys) with
        | nil => exact absurd hr (pySplit_ne_nil sep _)
        | cons a t => exact ⟨a, t, rfl⟩
      have htne : t ≠ [] := by
        intro he
        rw [ht, he] at h2
        simp at h2
      rw [ht]
      simp only [List.headD_cons, List.tail_cons, List.getLastD_cons]
      rw [ht, List.getLastD_cons] at ih
      rw [getLastD_irrel htne _ a]
      exact ih

theorem pySplit_headD {sep : Char} {xs : List Char} (ys : List Char) (h : sep ∉ xs) :
    (pySplit sep (xs ++ sep :: ys)).headD [] = xs := by
  induction xs with
  | nil => simp [pySplit]
  | cons c xs ih =>
    simp only [List.mem_cons, not_or] at h
    simp only [List.cons_append, pySplit, List.append_eq]
    rw [if_neg (fun he => h.1 he.symm)]
    simp only [List.headD_cons]
    rw [ih h.2]

/-! ## Helper lemmas: `pyStrip` -/

/-- The character list of `pyStrip`. -/
theorem pyStrip_data (s : String) :
    (pyStrip s).data
      = ((s.data.dropWhile Char.isWhitespace).reverse.dropWhile Char.isWhitespace).reverse := rfl

theorem head?_dropWhile_not (p : α → Bool) (l : List α) {x : α}
    (h : (l.dropWhile p).head? = some x) : p x = false := by
  induction l with
  | nil => simp at h
  | cons c cs ih =>
    rw [List.dropWhile_cons] at h
    split at h
    · exact ih h
    · rename_i hc
      simp only [List.head?_cons, Option.some.injEq] at h
      subst h
      simpa using hc

theorem dropWhile_eq_self_of_head? (p : α → Bool) (l : List α)
    (h : ∀ x, l.head? = some x → p x = false) : l.dropWhile p = l := by
  cases l with
  | nil => rfl
  | cons c cs =>
    rw [List.dropWhile_cons, if_neg]
    simp [h c rfl]

theorem pyStrip_sublist (s : String) : (pyStrip s).data <+ s.data := by
  rw [pyStrip_data]
  refine List.Sublist.trans ?_ (List.dropWhile_sublist (l := s.data) Char.isWhitespace)
  have h1 : ((s.data.dropWhile Char.isWhitespace).reverse.dropWhile Char.isWhitespace)
      <+ (s.data.dropWhile Char.isWhitespace).reverse := List.dropWhile_sublist _
  calc ((s.data.dropWhile Char.isWhitespace).reverse.dropWhile Char.isWhitespace).reverse
      <+ (s.data.dropWhile Char.isWhitespace).reverse.reverse := by
        exact List.reverse_sublist.2 h1
    _ = s.data.dropWhile Char.isWhitespace := by rw [List.reverse_reverse]

theorem pyStrip_getLast? (s : String) {x : Char}
    (h : (pyStrip s).data.getLast? = some x) : x.isWhitespace = false := by
  rw [pyStrip_data, List.getLast?_reverse] at h
  exact head?_dropWhile_not _ _ h

theorem pyStrip_prefix_dropWhile (s : String) :
    (pyStrip s).data <+: s.data.dropWhile Char.isWhitespace := by
  rw [pyStrip_data]
  have h := List.reverse_prefix.2
    (List.dropWhile_suffix (l := (s.data.dropWhile Char.isWhitespace).reverse) Char.isWhitespace)
  simpa using h

theorem pyStrip_head? (s : String) {x : Char}
    (h : (pyStrip s).data.head? = some x) : x.isWhitespace = false := by
  obtain ⟨t, ht⟩ := pyStrip_prefix_dropWhile s
  have : (s.data.dropWhile Char.isWhitespace).head? = some x := by
    rw [← ht, List.head?_append, h]
    rfl
  exact head?_dropWhile_not _ _ this

theorem pyStrip_of_clean (s : String)
    (hh : ∀ x, s.data.head? = some x → x.isWhitespace = false)
    (hl : ∀ x, s.data.getLast? = some x → x.isWhitespace = false) :
    pyStrip s = s := by
  have h1 : s.data.dropWhile Char.isWhitespace = s.data :=
    dropWhile_eq_self_of_head? _ _ hh
  have h2 : s.data.reverse.dropWhile Char.isWhitespace = s.data.reverse := by
    refine dropWhile_eq_self_of_head? _ _ ?_
    intro x hx
    rw [List.head?_reverse] at hx
    exact hl x hx
  have h3 : (pyStrip s).data = s.data := by
    rw [pyStrip_data, h1, h2, List.reverse_reverse]
  exact congrArg String.mk h3

/-! ## Claim C9 -/

/-- C9: `fix_shorts_url` maps a shorts URL of the form
`.../shorts/<id>?<query>` to the canonical watch URL
`https://www.youtube.com/watch?v=<id>` (video id intact, query dropped), and
is the identity on every URL that does not contain the
`youtube.com/shorts/` marker. -/
theorem c9_resolveUrl_shorts_and_identity (pre vid q : String)
    (h1 : '/' ∉ vid.data) (h2 : '?' ∉ vid.data) (h3 : '/' ∉ q.data) :
    fix_shorts_url (pre ++ "youtube.com/shorts/" ++ vid ++ "?" ++ q)
      = "https://www.youtube.com/watch?v=" ++ vid
    ∧ ∀ url : String, ¬ ("youtube.com/shorts/".data <:+: url.data) →
        fix_shorts_url url = url := by
  constructor
  · have hm : ("youtube.com/shorts/" : String).data
        = ("youtube.com/shorts" : String).data ++ ['/'] := rfl
    have hq : ("?" : String).data = ['?'] := rfl
    have hdata : (pre ++ "youtube.com/shorts/" ++ vid ++ "?" ++ q).data
        = (pre.data ++ ("youtube.com/shorts" : String).data)
          ++ '/' :: (vid.data ++ '?' :: q.data) := by
      simp only [String.data_append, hm, hq]
      simp [List.append_assoc]
    have hinf : ("youtube.com/shorts/" : String).data
        <:+: ((pre.data ++ ("youtube.com/shorts" : String).data)
          ++ '/' :: (vid.data ++ '?' :: q.data)) := by
      refine ⟨pre.data, vid.data ++ '?' :: q.data, ?_⟩
      rw [hm]
      simp
    have hB : '/' ∉ vid.data ++ '?' :: q.data := by
      simp only [List.mem_append, List.mem_cons, not_or]
      exact ⟨h1, by decide, h3⟩
    unfold fix_shorts_url
    rw [hdata, if_pos hinf]
    simp only [pySplit_getLastD (pre.data ++ ("youtube.com/shorts" : String).data) hB,
      pySplit_headD q.data h2]
  · intro url hurl
    unfold fix_shorts_url
    rw [if_neg hurl]

/-- Witness for C9: the spec's concrete shorts-URL scenario. -/
theorem c9_witness :
    fix_shorts_url ("https://www." ++ "youtube.com/shorts/" ++ "abc123" ++ "?" ++ "x=1")
      = "https://www.youtube.com/watch?v=" ++ "abc123" :=
  (c9_resolveUrl_shorts_and_identity "https://www." "abc123" "x=1"
    (by decide) (by decide) (by decide)).1

/-! ## Claim C10 -/

theorem sanitize_decomp (s : String) :
    ∃ t : String, sanitize_filename s = pyStrip t
      ∧ t.data <+ s.data.filter (fun c => !forbiddenChars.contains c)
      ∧ t.data.length ≤ 100 := by
  by_cases h :
      (String.mk (s.data.filter (fun c => !forbiddenChars.contains c))).length > 100
  · refine ⟨⟨(s.data.filter (fun c => !forbiddenChars.contains c)).take 100⟩, ?_,
      List.take_sublist _ _, ?_⟩
    · show pyStrip
        (if (String.mk (s.data.filter (fun c => !forbiddenChars.contains c))).length > 100
         then String.mk
           ((String.mk (s.data.filter (fun c => !forbiddenChars.contains c))).data.take 100)
         else String.mk (s.data.filter (fun c => !forbiddenChars.contains c))) = _
      rw [if_pos h]
    · simp only [List.length_take]
      omega
  · refine ⟨⟨s.data.filter (fun c => !forbiddenChars.contains c)⟩, ?_,
      List.Sublist.refl _, ?_⟩
    · show pyStrip
        (if (String.mk (s.data.filter (fun c => !forbiddenChars.contains c))).length > 100
         then String.mk
           ((String.mk (s.data.filter (fun c => !forbiddenChars.contains c))).data.take 100)
         else String.mk (s.data.filter (fun c => !forbiddenChars.contains c))) = _
      rw [if_neg h]
    · have h2 : (String.mk (s.data.filter (fun c => !forbiddenChars.contains c))).length
          = (s.data.filter (fun c => !forbiddenChars.contains c)).length := rfl
      show (s.data.filter (fun c => !forbiddenChars.contains c)).length ≤ 100
      omega

/-- C10: `sanitize_filename` always produces a string of at most 100
characters, containing none of the forbidden characters
`<>:"/\|?*`, with no leading or trailing whitespace, and it is idempotent. -/
theorem c10_sanitize_filename_props (s : String) :
    (sanitize_filename s).length ≤ 100
    ∧ (sanitize_filename s).data.all (fun c => !forbiddenChars.contains c) = true
    ∧ (sanitize_filename s).data.head?.all (fun c => !c.isWhitespace) = true
    ∧ (sanitize_filename s).data.getLast?.all (fun c => !c.isWhitespace) = true
    ∧ sanitize_filename (sanitize_filename s) = sanitize_filename s := by
  obtain ⟨t, ht, hsub, hlen⟩ := sanitize_decomp s
  have hmem : ∀ c ∈ (sanitize_filename s).data,
      c ∈ s.data.filter (fun c => !forbiddenChars.contains c) := by
    intro c hc
    rw [ht] at hc
    exact hsub.mem ((pyStrip_sublist t).mem hc)
  have hclean : ∀ c ∈ (sanitize_filename s).data, (!forbiddenChars.contains c) = true := by
    intro c hc
    exact List.of_mem_filter (p := fun c => !forbiddenChars.contains c) (hmem c hc)
  have hlength : (sanitize_filename s).length ≤ 100 := by
    rw [ht]
    have h1 := (pyStrip_sublist t).length_le
    have h2 : (pyStrip t).length = (pyStrip t).data.length := rfl
    omega
  have hhead : (sanitize_filename s).data.head?.all (fun c => !c.isWhitespace) = true := by
    rw [ht]
    cases hx : (pyStrip t).data.head? with
    | none => rfl
    | some x => simp [pyStrip_head? t hx]
  have hlast : (sanitize_filename s).data.getLast?.all (fun c => !c.isWhitespace) = true := by
    rw [ht]
    cases hx : (pyStrip t).data.getLast? with
    | none => rfl
    | some x => simp [pyStrip_getLast? t hx]
  refine ⟨hlength, List.all_eq_true.2 hclean, hhead, hlast, ?_⟩
  have hfilter : (sanitize_filename s).data.filter (fun c => !forbiddenChars.contains c)
      = (sanitize_filename s).data := List.filter_eq_self.2 hclean
  have e1 : String.mk ((sanitize_filename s).data.filter
      (fun c => !forbiddenChars.contains c)) = sanitize_filename s := by
    rw [hfilter]
  have hnotrunc : ¬ ((sanitize_filename s).length > 100) := by omega
  show pyStrip
      (if (String.mk ((sanitize_filename s).data.filter
            (fun c => !forbiddenChars.contains c))).length > 100
       then String.mk ((String.mk ((sanitize_filename s).data.filter
            (fun c => !forbiddenChars.contains c))).data.take 100)
       else String.mk ((sanitize_filename s).data.filter
            (fun c => !forbiddenChars.contains c))) = sanitize_filename s
  rw [e1, if_neg hnotrunc]
  refine pyStrip_of_clean _ ?_ ?_
  · intro x hx
    rw [ht] at hx
    exact pyStrip_head? t hx
  · intro x hx
    rw [ht] at hx
    exact pyStrip_getLast? t hx

/-! ## Claim C3 -/

/-- Inversion of a successful `extract_formats` run into its assembled list
and the dedup-sort step. -/
theorem extract_formats_ok {raw : List RawFormat} {cat : List FormatInfo}
    (h : extract_formats raw = .ok cat) :
    ∃ L, assembleFormats raw = .ok L ∧ cat = deduplicate_and_sort_formats L := by
  unfold extract_formats at h
  cases hL : assembleFormats raw with
  | error e => rw [hL] at h; exact absurd h (by simp)
  | ok L =>
    rw [hL] at h
    simp only [Except.ok.injEq] at h
    exact ⟨L, rfl, h.symm⟩

/-- C3: in every successfully built catalog the `(resolution, type, quality)`
keys are pairwise distinct, every surviving option is the first entry of the
assembled list carrying its key (deduplication keeps the first occurrence in
construction order), the catalog is sorted descending by quality score, and
entries of equal quality keep their prior relative order (the sort is
stable over the deduplicated sequence). -/
theorem c3_dedup_and_sort_invariants (raw : List RawFormat) (L cat : List FormatInfo)
    (hL : assembleFormats raw = .ok L) (hcat : extract_formats raw = .ok cat) :
    cat.Pairwise (fun a b => fkey a ≠ fkey b)
    ∧ (∀ g ∈ cat, L.find? (fun x => fkey x == fkey g) = some g)
    ∧ cat.Pairwise (fun a b => b.quality ≤ a.quality)
    ∧ ∀ q : Int, cat.filter (fun x => x.quality == q)
        = (dedupFormats L).filter (fun x => x.quality == q) := by
  obtain ⟨L', hL', hc⟩ := extract_formats_ok hcat
  rw [hL] at hL'
  cases hL'
  subst hc
  unfold deduplicate_and_sort_formats
  refine ⟨?_, ?_, ?_, ?_⟩
  · refine ((pySortDesc_perm (fun f : FormatInfo => f.quality) (dedupFormats L)).pairwise_iff ?_).2
      (dedupAux_pairwise [] L)
    exact fun h => h.symm
  · intro g hg
    have hg' : g ∈ dedupFormats L :=
      (pySortDesc_perm (fun f : FormatInfo => f.quality) (dedupFormats L)).mem_iff.1 hg
    exact dedupAux_find? hg'
  · exact pySortDesc_sorted (fun f : FormatInfo => f.quality) (dedupFormats L)
  · intro q
    exact pySortDesc_filter (fun f : FormatInfo => f.quality) (dedupFormats L) q

/-- Witness for C3: the empty descriptor list, whose assembled list and
catalog are computed literally. -/
theorem c3_witness :
    sentinelCatalog.Pairwise (fun a b => fkey a ≠ fkey b) :=
  (c3_dedup_and_sort_invariants [] (mp3_format :: ([ultra4k_format] ++ auto_formats))
    sentinelCatalog rfl rfl).1

/-! ## Claim C8 -/

theorem dedupFormats_cons (f : FormatInfo) (fs : List FormatInfo) :
    dedupFormats (f :: fs) = f :: dedupAux [fkey f] fs := by
  simp [dedupFormats, dedupAux]

/-- C8: the empty raw descriptor list yields exactly the fixed sentinel
entries (mp3 at quality 1, best at 10000, bestvideo+bestaudio at 15000, the
1080p cap at 1080, the 2160p cap at 2160 and the 4K-ULTRA combined entry at
5000), a non-empty catalog; and the mp3 sentinel is a member of every
successfully built catalog. -/
theorem c8_sentinel_catalog :
    extract_formats [] = .ok sentinelCatalog
    ∧ sentinelCatalog ≠ []
    ∧ mp3_format.quality = 1
    ∧ ∀ raw cat, extract_formats raw = .ok cat → mp3_format ∈ cat := by
  refine ⟨rfl, by simp [sentinelCatalog], rfl, ?_⟩
  intro raw cat hcat
  obtain ⟨L, hL, hc⟩ := extract_formats_ok hcat
  unfold assembleFormats at hL
  cases hp : processFormats raw with
  | error e => rw [hp] at hL; exact absurd hL (by simp)
  | ok pf =>
    rw [hp] at hL
    cases hcb : create_combined_formats raw with
    | error e => rw [hcb] at hL; exact absurd hL (by simp)
    | ok cb =>
      rw [hcb] at hL
      simp only [Except.ok.injEq] at hL
      subst hL
      subst hc
      unfold deduplicate_and_sort_formats
      refine (pySortDesc_perm (fun f : FormatInfo => f.quality) _).mem_iff.2 ?_
      rw [dedupFormats_cons]
      exact List.mem_cons_self _ _

/-- Witness for C8: the mp3 sentinel is in the catalog of the empty list. -/
theorem c8_witness : mp3_format ∈ sentinelCatalog :=
  c8_sentinel_catalog.2.2.2 [] sentinelCatalog rfl

/-! ## Claim C1 -/

/-- C1 (code evaluation at the failing input): the pure-audio descriptor
`audioRaw140` declares an audio bitrate of 128 (well above the documented
floor of 50), yet no option derived from it survives in the built catalog:
`is_valid_format` reads the `abr` key from the standardized entry, which
`create_format_info` never stores, so the bitrate check always sees 0 and
discards every pure-audio descriptor. -/
theorem c1_pure_audio_always_discarded :
    audioRaw140.abr = some 128
    ∧ (extract_formats [audioRaw140]).map
        (fun cat => cat.all (fun g => g.format_id != "140")) = .ok true
    ∧ (create_format_info audioRaw140).map
        (fun o => (o.map (fun x =>
          x.type == "audio" && x.abr == none && !(is_valid_format x))).getD false)
        = .ok true :=
  ⟨rfl, by rfl, by rfl⟩

/-! ## Claim C2 -/

/-- Counterexample to C2: a descriptor with a missing format identifier does
not merely get skipped — the whole build aborts with the `KeyError`, and the
well-formed descriptor after it is never processed into a catalog. -/
theorem c2_counterexample :
    extract_formats [noIdRaw, goodRaw22] = .error "format_id" := rfl

theorem create_format_info_no_id {d : RawFormat} (hid : d.format_id = none) :
    create_format_info d = .error "format_id" := by
  unfold create_format_info
  rw [hid]
  simp only [Option.getD_none]
  rw [if_neg (by decide)]


theorem processFormats_error {raw : List RawFormat} {d : RawFormat}
    (hd : d ∈ raw) (hid : d.format_id = none) :
    ∃ msg, processFormats raw = .error msg := by
  induction raw with
  | nil => simp at hd
  | cons f fs ih =>
    cases h1 : create_format_info f with
    | error e => exact ⟨e, by simp [processFormats, h1]⟩
    | ok fi =>
      rcases List.mem_cons.1 hd with rfl | hd'
      · rw [create_format_info_no_id hid] at h1
        exact absurd h1 (by simp)
      · obtain ⟨m, hm⟩ := ih hd'
        refine ⟨m, ?_⟩
        simp only [processFormats, h1, hm]

/-- C2 (amended): a descriptor whose mandatory format identifier is missing
makes the whole catalog build fail with the `KeyError` — the build raises,
and no other descriptor of the sequence is processed into a catalog. -/
theorem c2_missing_id_fails_whole_build (raw : List RawFormat) (d : RawFormat)
    (hd : d ∈ raw) (hid : d.format_id = none) :
    ∃ msg, extract_formats raw = .error msg := by
  obtain ⟨m, hm⟩ := processFormats_error hd hid
  refine ⟨m, ?_⟩
  unfold extract_formats assembleFormats
  rw [hm]

/-- Witness for the amended C2. -/
theorem c2_witness : ∃ msg, extract_formats [noIdRaw, goodRaw22] = .error msg :=
  c2_missing_id_fails_whole_build [noIdRaw, goodRaw22] noIdRaw
    (List.mem_cons_self _ _) rfl

/-! ## Claim C4: helper lemmas -/

theorem pyCharUpper_ne_p (c : Char) : pyCharUpper c ≠ 'p' := by
  unfold pyCharUpper
  split
  · rename_i h
    intro he
    have h2 := congrArg Char.toNat he
    have h3 : (Char.ofNatAux (c.toNat - 32)
        (Or.inl (by omega))).toNat = c.toNat - 32 := rfl
    rw [h3] at h2
    have h4 : ('p').toNat = 112 := rfl
    omega
  · rename_i h
    intro he
    subst he
    exact h (by decide)

theorem pyUpper_no_p (s : String) : 'p' ∉ (pyUpper s).data := by
  intro hm
  have hm' : 'p' ∈ s.data.map pyCharUpper := hm
  rcases List.mem_map.1 hm' with ⟨c, _, hc⟩
  exact pyCharUpper_ne_p c hc

theorem p_mem_combined_resolution (h : Int) :
    'p' ∈ (toString h ++ "p (+AUDIO)").data := by
  rw [String.data_append]
  refine List.mem_append.2 (Or.inr ?_)
  show 'p' ∈ ("p (+AUDIO)" : String).data
  decide

/-- Every entry produced by `create_format_info` has resolution `"N/A"` or an
uppercased label. -/
theorem create_format_info_resolution {f : RawFormat} {x : FormatInfo}
    (h : create_format_info f = .ok (some x)) :
    x.resolution = "N/A" ∨ ∃ s, x.resolution = pyUpper s := by
  simp only [create_format_info] at h
  split at h
  · exact absurd h (by simp)
  · cases hfid : f.format_id with
    | none => rw [hfid] at h; exact absurd h (by simp)
    | some fid =>
      rw [hfid] at h
      simp only [Except.ok.injEq, Option.some.injEq] at h
      subst h
      dsimp only
      repeat' split
      all_goals first
        | exact Or.inr ⟨_, rfl⟩
        | exact Or.inl rfl

/-- Every entry of a successful `processFormats` run comes from
`create_format_info`. -/
theorem processFormats_mem_shape {raw : List RawFormat} {pf : List FormatInfo}
    (h : processFormats raw = .ok pf) {x : FormatInfo} (hx : x ∈ pf) :
    ∃ f, create_format_info f = .ok (some x) := by
  induction raw generalizing pf with
  | nil =>
    simp only [processFormats, Except.ok.injEq] at h
    subst h
    simp at hx
  | cons f fs ih =>
    simp only [processFormats] at h
    cases h1 : create_format_info f with
    | error e => rw [h1] at h; exact absurd h (by simp)
    | ok fi =>
      rw [h1] at h
      cases h2 : processFormats fs with
      | error e => rw [h2] at h; exact absurd h (by simp)
      | ok rest =>
        rw [h2] at h
        simp only [] at h
        cases fi with
        | none =>
          simp only [Except.ok.injEq] at h
          subst h
          exact ih h2 hx
        | some y =>
          simp only [] at h
          by_cases hv : is_valid_format y
          · rw [if_pos hv] at h
            simp only [Except.ok.injEq] at h
            subst h
            rcases List.mem_cons.1 hx with rfl | hx'
            · exact ⟨f, h1⟩
            · exact ih h2 hx'
          · rw [if_neg hv] at h
            simp only [Except.ok.injEq] at h
            subst h
            exact ih h2 hx

/-- Every entry of a successful `combineVideos` run is the combined entry of
one of the video-only descriptors, with height at least 360. -/
theorem combineVideos_mem_shape {vs : List RawFormat} {es : List FormatInfo}
    (h : combineVideos vs = .ok es) {g : FormatInfo} (hg : g ∈ es) :
    ∃ v ∈ vs, ∃ fid, v.format_id = some fid ∧ 360 ≤ v.height.getD 0
      ∧ g = combinedEntry fid (v.height.getD 0) := by
  induction vs generalizing es with
  | nil =>
    simp only [combineVideos, Except.ok.injEq] at h
    subst h
    simp at hg
  | cons v vs ih =>
    simp only [combineVideos] at h
    by_cases h360 : v.height.getD 0 ≥ 360
    · rw [if_pos h360] at h
      cases hfid : v.format_id with
      | none => rw [hfid] at h; exact absurd h (by simp)
      | some fid =>
        rw [hfid] at h
        cases hrec : combineVideos vs with
        | error e => rw [hrec] at h; exact absurd h (by simp)
        | ok rest =>
          rw [hrec] at h
          simp only [Except.ok.injEq] at h
          subst h
          rcases List.mem_cons.1 hg with rfl | hg'
          · exact ⟨v, List.mem_cons_self _ _, fid, hfid, h360, rfl⟩
          · obtain ⟨v', hv', fid', h1, h2, h3⟩ := ih hrec hg'
            exact ⟨v', List.mem_cons_of_mem _ hv', fid', h1, h2, h3⟩
    · rw [if_neg h360] at h
      obtain ⟨v', hv', fid', h1, h2, h3⟩ := ih h hg
      exact ⟨v', List.mem_cons_of_mem _ hv', fid', h1, h2, h3⟩

/-- Conversely, every video-only descriptor with height at least 360
contributes its combined entry to a successful `combineVideos` run. -/
theorem combineVideos_mem_of {vs : List RawFormat} {es : List FormatInfo}
    (h : combineVideos vs = .ok es) {v : RawFormat} (hv : v ∈ vs)
    (h360 : 360 ≤ v.height.getD 0) :
    ∃ fid, v.format_id = some fid ∧ combinedEntry fid (v.height.getD 0) ∈ es := by
  induction vs generalizing es with
  | nil => simp at hv
  | cons w ws ih =>
    simp only [combineVideos] at h
    by_cases hw : w.height.getD 0 ≥ 360
    · rw [if_pos hw] at h
      cases hfid : w.format_id with
      | none => rw [hfid] at h; exact absurd h (by simp)
      | some fid =>
        rw [hfid] at h
        cases hrec : combineVideos ws with
        | error e => rw [hrec] at h; exact absurd h (by simp)
        | ok rest =>
          rw [hrec] at h
          simp only [Except.ok.injEq] at h
          subst h
          rcases List.mem_cons.1 hv with rfl | hv'
          · exact ⟨fid, hfid, List.mem_cons_self _ _⟩
          · obtain ⟨fid', h1, h2⟩ := ih hrec hv'
            exact ⟨fid', h1, List.mem_cons_of_mem _ h2⟩
    · rw [if_neg hw] at h
      rcases List.mem_cons.1 hv with rfl | hv'
      · exact absurd h360 hw
      · exact ih h hv'

/-- Inversion of a successful `create_combined_formats` run. -/
theorem create_combined_formats_ok {raw : List RawFormat} {cb : List FormatInfo}
    (h : create_combined_formats raw = .ok cb) :
    ∃ es, combineVideos (pySortDesc (fun f : RawFormat => f.height.getD 0)
        (raw.filter (fun f => f.vcodec != some "none" && f.acodec == some "none")))
          = .ok es
      ∧ cb = es ++ [ultra4k_format] := by
  simp only [create_combined_formats] at h
  cases hcv : combineVideos (pySortDesc (fun f : RawFormat => f.height.getD 0)
      (raw.filter (fun f => f.vcodec != some "none" && f.acodec == some "none"))) with
  | error e => rw [hcv] at h; exact absurd h (by simp)
  | ok es =>
    rw [hcv] at h
    simp only [Except.ok.injEq] at h
    exact ⟨es, rfl, h.symm⟩

/-- Inversion of a successful `assembleFormats` run. -/
theorem assembleFormats_ok {raw : List RawFormat} {L : List FormatInfo}
    (h : assembleFormats raw = .ok L) :
    ∃ pf cb, processFormats raw = .ok pf ∧ create_combined_formats raw = .ok cb
      ∧ L = mp3_format :: (pf ++ (cb ++ auto_formats)) := by
  simp only [assembleFormats] at h
  cases hp : processFormats raw with
  | error e => rw [hp] at h; exact absurd h (by simp)
  | ok pf =>
    rw [hp] at h
    cases hcb : create_combined_formats raw with
    | error e => rw [hcb] at h; exact absurd h (by simp)
    | ok cb =>
      rw [hcb] at h
      simp only [Except.ok.injEq] at h
      exact ⟨pf, cb, rfl, rfl, h.symm⟩

/-- Any entry of the assembled list whose key is a combined-entry key
`("{h}p (+AUDIO)", "video+audio", h + 1000)` is itself a combined entry
synthesized from a video-only descriptor of height `h`. -/
theorem assembled_with_combined_key {raw : List RawFormat} {L : List FormatInfo}
    (hL : assembleFormats raw = .ok L) {g : FormatInfo} (hg : g ∈ L) {h : Int}
    (hk : fkey g = (toString h ++ "p (+AUDIO)", "video+audio", h + 1000)) :
    ∃ v ∈ raw, v.vcodec ≠ some "none" ∧ v.acodec = some "none"
      ∧ v.height.getD 0 = h ∧ ∃ fid, v.format_id = some fid
      ∧ g = combinedEntry fid h := by
  obtain ⟨pf, cb, hpf, hcb, rfl⟩ := assembleFormats_ok hL
  obtain ⟨es, hes, rfl⟩ := create_combined_formats_ok hcb
  rcases List.mem_cons.1 hg with rfl | hg
  · exfalso
    have htype : "audio" = "video+audio" := congrArg (fun k : String × String × Int => k.2.1) hk
    exact absurd htype (by decide)
  rcases List.mem_append.1 hg with hgp | hg
  · exfalso
    obtain ⟨f0, hf0⟩ := processFormats_mem_shape hpf hgp
    have hres := create_format_info_resolution hf0
    have hkr : g.resolution = toString h ++ "p (+AUDIO)" :=
      congrArg (fun k : String × String × Int => k.1) hk
    have hp : 'p' ∈ g.resolution.data := by
      rw [hkr]
      exact p_mem_combined_resolution h
    rcases hres with hres | ⟨s, hres⟩
    · rw [hres] at hp
      exact absurd hp (by decide)
    · rw [hres] at hp
      exact pyUpper_no_p s hp
  rcases List.mem_append.1 hg with hgc | hga
  · rcases List.mem_append.1 hgc with hge | hgu
    · obtain ⟨v, hv, fid, hfid, h360, rfl⟩ := combineVideos_mem_shape hes hge
      have hq : v.height.getD 0 + 1000 = h + 1000 :=
        congrArg (fun k : String × String × Int => k.2.2) hk
      have hh : v.height.getD 0 = h := by omega
      have hv' : v ∈ raw.filter
          (fun f => f.vcodec != some "none" && f.acodec == some "none") :=
        (pySortDesc_perm (fun f : RawFormat => f.height.getD 0) _).mem_iff.1 hv
      have hvraw := List.mem_filter.1 hv'
      have hcodec := hvraw.2
      simp only [Bool.and_eq_true, bne_iff_ne, beq_iff_eq] at hcodec
      exact ⟨v, hvraw.1, hcodec.1, hcodec.2, hh, fid, hfid, by rw [hh]⟩
    · exfalso
      have hgu' : g = ultra4k_format := List.mem_singleton.1 hgu
      subst hgu'
      have hq : (5000 : Int) = h + 1000 :=
        congrArg (fun k : String × String × Int => k.2.2) hk
      have hh : h = 4000 := by omega
      have hr : "4K ULTRA (+AUDIO)" = toString h ++ "p (+AUDIO)" :=
        congrArg (fun k : String × String × Int => k.1) hk
      rw [hh] at hr
      exact absurd hr (by decide)
  · exfalso
    simp only [auto_formats, List.mem_cons, List.not_mem_nil, or_false] at hga
    rcases hga with rfl | rfl | rfl | rfl
    · have hq : (10000 : Int) = h + 1000 :=
        congrArg (fun k : String × String × Int => k.2.2) hk
      have hh : h = 9000 := by omega
      have hr : "BEST (Auto Select)" = toString h ++ "p (+AUDIO)" :=
        congrArg (fun k : String × String × Int => k.1) hk
      rw [hh] at hr
      exact absurd hr (by decide)
    · have hq : (15000 : Int) = h + 1000 :=
        congrArg (fun k : String × String × Int => k.2.2) hk
      have hh : h = 14000 := by omega
      have hr : "BEST VIDEO + BEST AUDIO (4K Ready)" = toString h ++ "p (+AUDIO)" :=
        congrArg (fun k : String × String × Int => k.1) hk
      rw [hh] at hr
      exact absurd hr (by decide)
    · have hq : (1080 : Int) = h + 1000 :=
        congrArg (fun k : String × String × Int => k.2.2) hk
      have hh : h = 80 := by omega
      have hr : "1080p MAX (Auto Merge)" = toString h ++ "p (+AUDIO)" :=
        congrArg (fun k : String × String × Int => k.1) hk
      rw [hh] at hr
      exact absurd hr (by decide)
    · have hq : (2160 : Int) = h + 1000 :=
        congrArg (fun k : String × String × Int => k.2.2) hk
      have hh : h = 1160 := by omega
      have hr : "4K MAX (Auto Merge)" = toString h ++ "p (+AUDIO)" :=
        congrArg (fun k : String × String × Int => k.1) hk
      rw [hh] at hr
      exact absurd hr (by decide)

/-- Counterexample to C4: two distinct video-only descriptors with the same
height 720 produce combined entries with identical deduplication keys, so
only the first survives — the catalog has no `"2+bestaudio"` option even
though descriptor `"2"` is video-only with height 720. -/
theorem c4_counterexample :
    (extract_formats [videoRawA, videoRawB]).map
        (fun cat => cat.any (fun g => g.format_id == "1+bestaudio")
          && cat.all (fun g => g.format_id != "2+bestaudio")) = .ok true := by rfl

/-- C4 (amended): for every video-only descriptor of height `h ≥ 360` in the
input, the built catalog contains a combined option with resolution label
`"{h}p (+AUDIO)"`, quality score `h + 1000`, and identifier
`fid ++ "+bestaudio"` where `fid` is the id of some video-only descriptor of
the same height `h` in the input (when several descriptors share a height,
deduplication keeps only the first combined entry). -/
theorem c4_combined_entry_per_height (raw : List RawFormat) (cat : List FormatInfo)
    (hcat : extract_formats raw = .ok cat) (d : RawFormat) (hd : d ∈ raw)
    (hv : d.vcodec ≠ some "none") (ha : d.acodec = some "none")
    (h360 : 360 ≤ d.height.getD 0) :
    ∃ g ∈ cat, ∃ d' ∈ raw, ∃ fid,
      d'.vcodec ≠ some "none" ∧ d'.acodec = some "none"
      ∧ d'.height.getD 0 = d.height.getD 0
      ∧ d'.format_id = some fid
      ∧ g = combinedEntry fid (d.height.getD 0)
      ∧ g.format_id = fid ++ "+bestaudio"
      ∧ g.resolution = toString (d.height.getD 0) ++ "p (+AUDIO)"
      ∧ g.type = "video+audio"
      ∧ g.quality = d.height.getD 0 + 1000 := by
  obtain ⟨L, hL, rfl⟩ := extract_formats_ok hcat
  obtain ⟨pf, cb, hpf, hcb, hLd⟩ := assembleFormats_ok hL
  obtain ⟨es, hes, hcbd⟩ := create_combined_formats_ok hcb
  have hdf : d ∈ raw.filter
      (fun f => f.vcodec != some "none" && f.acodec == some "none") :=
    List.mem_filter.2 ⟨hd, by simp [hv, ha]⟩
  have hds : d ∈ pySortDesc (fun f : RawFormat => f.height.getD 0)
      (raw.filter (fun f => f.vcodec != some "none" && f.acodec == some "none")) :=
    (pySortDesc_perm (fun f : RawFormat => f.height.getD 0) _).mem_iff.2 hdf
  obtain ⟨fid0, hfid0, hmem0⟩ := combineVideos_mem_of hes hds h360
  have hentry : combinedEntry fid0 (d.height.getD 0) ∈ L := by
    rw [hLd, hcbd]
    simp only [List.mem_cons, List.mem_append]
    exact Or.inr (Or.inr (Or.inl (Or.inl hmem0)))
  rcases dedupAux_key_covered hentry [] with habs | ⟨g, hgded, hgk⟩
  · simp at habs
  have hgcat : g ∈ deduplicate_and_sort_formats L := by
    unfold deduplicate_and_sort_formats dedupFormats
    exact (pySortDesc_perm (fun f : FormatInfo => f.quality) _).mem_iff.2 hgded
  have hgL : g ∈ L := mem_of_mem_dedupAux hgded
  have hk : fkey g = (toString (d.height.getD 0) ++ "p (+AUDIO)", "video+audio",
      d.height.getD 0 + 1000) := hgk
  obtain ⟨v, hvraw, hv1, hv2, hh, fid, hfid, hgdef⟩ := assembled_with_combined_key hL hgL hk
  subst hgdef
  exact ⟨combinedEntry fid (d.height.getD 0), hgcat, v, hvraw, fid, hv1, hv2, hh, hfid,
    rfl, rfl, rfl, rfl, rfl⟩

/-- Witness for the amended C4: the `"337"` 4K scenario. -/
theorem c4_witness :
    ∃ g ∈ cat337, ∃ d' ∈ [raw337], ∃ fid,
      d'.vcodec ≠ some "none" ∧ d'.acodec = some "none"
      ∧ d'.height.getD 0 = raw337.height.getD 0
      ∧ d'.format_id = some fid
      ∧ g = combinedEntry fid (raw337.height.getD 0)
      ∧ g.format_id = fid ++ "+bestaudio"
      ∧ g.resolution = toString (raw337.height.getD 0) ++ "p (+AUDIO)"
      ∧ g.type = "video+audio"
      ∧ g.quality = raw337.height.getD 0 + 1000 :=
  c4_combined_entry_per_height [raw337] cat337 (by rfl) raw337
    (List.mem_singleton.2 rfl) (by decide) (by rfl) (by decide)

/-! ## Claim C5 -/

/-- Counterexample to C5: the `"337+bestaudio"` option's resolution label is
`"2160p (+AUDIO)"` — it does not carry the `(4K)` annotation the claim
requires (every option with that identifier is free of `"(4K)"`). -/
theorem c5_counterexample :
    (extract_formats [raw337]).map
      (fun cat => cat.all (fun g =>
        g.format_id != "337+bestaudio" || !(pyContains g.resolution "(4K)"))) = .ok true := by
  rfl

/-- C5 (amended): the `"337"` 4K scenario produces an option with identifier
`"337+bestaudio"`, resolution label `"2160p (+AUDIO)"` (containing
`"2160p"` but not the `(4K)` annotation) and quality score 3160; the `(4K)`
annotation instead appears on the separate video-only `"337"` option. -/
theorem c5_337_4k_scenario :
    (extract_formats [raw337]).map
      (fun cat =>
        cat.any (fun g => g.format_id == "337+bestaudio"
            && g.resolution == "2160p (+AUDIO)"
            && pyContains g.resolution "2160p"
            && !(pyContains g.resolution "(4K)")
            && g.quality == 3160)
        && cat.any (fun g => g.format_id == "337"
            && pyContains g.resolution "(4K)")) = .ok true := by
  rfl

/-! ## Claim C6 -/

theorem rhe_nonneg {q : ℚ} (h : 0 ≤ q) : 0 ≤ rhe q := by
  simp only [rhe]
  have hf : (0 : ℤ) ≤ ⌊q⌋ := Int.floor_nonneg.2 h
  split
  · exact hf
  · split
    · omega
    · split <;> omega

theorem rhe_le_ceil (q : ℚ) : rhe q ≤ ⌈q⌉ := by
  simp only [rhe]
  split
  · exact Int.floor_le_ceil q
  · rename_i h1
    have hlt : (⌊q⌋ : ℚ) < q := by
      have h2 : (1 : ℚ)/2 ≤ q - ⌊q⌋ := le_of_not_lt h1
      linarith
    have hce : ⌊q⌋ + 1 ≤ ⌈q⌉ := by
      have := Int.lt_ceil.2 hlt
      omega
    split
    · omega
    · split <;> omega

theorem roundTo1_nonneg {q : ℚ} (h : 0 ≤ q) : 0 ≤ roundTo1 q := by
  unfold roundTo1
  have h1 : 0 ≤ rhe (q * 10) := rhe_nonneg (by linarith)
  have h2 : (0 : ℚ) ≤ (rhe (q * 10) : ℚ) := by exact_mod_cast h1
  linarith

theorem roundTo1_le_100 {q : ℚ} (h : q ≤ 100) : roundTo1 q ≤ 100 := by
  unfold roundTo1
  have h1 : rhe (q * 10) ≤ ⌈q * 10⌉ := rhe_le_ceil _
  have h2 : ⌈q * 10⌉ ≤ (1000 : ℤ) := by
    refine Int.ceil_le.2 ?_
    push_cast
    linarith
  have h3 : (rhe (q * 10) : ℚ) ≤ 1000 := by exact_mod_cast le_trans h1 h2
  linarith

theorem rhe_intCast (n : ℤ) : rhe (n : ℚ) = n := by
  simp only [rhe, Int.floor_intCast, sub_self]
  norm_num

theorem roundTo1_intCast (n : ℤ) : roundTo1 (n : ℚ) = n := by
  unfold roundTo1
  have h : (n : ℚ) * 10 = ((n * 10 : ℤ) : ℚ) := by push_cast; ring
  rw [h, rhe_intCast]
  push_cast
  exact mul_div_cancel_right₀ _ (by norm_num)

theorem roundTo1_zero : roundTo1 0 = 0 := by
  have h := roundTo1_intCast 0
  simpa using h

/-- The percent component of a `downloading` event. -/
theorem progress_hook_downloading_percent (d : RawProgress)
    (hd : d.status = "downloading") :
    (progress_hook d).map ProgressEvent.percent = some (roundTo1
      (if pyOrInt d.total_bytes (d.total_bytes_estimate.getD 0) > 0
       then (d.downloaded_bytes.getD 0 : ℚ)
         / (pyOrInt d.total_bytes (d.total_bytes_estimate.getD 0) : ℚ) * 100
       else 0)) := by
  simp only [progress_hook, hd, if_pos]
  rfl

/-- Counterexample to C6: a payload reporting 200 bytes downloaded out of a
total of 100 is forwarded with percent 200 — the emitted percent is not
clamped to the 0–100 range. -/
theorem c6_counterexample :
    ¬ ∀ (d : RawProgress) (ev : ProgressEvent), progress_hook d = some ev →
        0 ≤ ev.percent ∧ ev.percent ≤ 100 := by
  intro hclaim
  obtain ⟨ev, hev⟩ : ∃ ev, progress_hook overshootProgress = some ev := ⟨_, rfl⟩
  have hb := (hclaim _ ev hev).2
  have hp : ev.percent = roundTo1 (((200 : ℤ) : ℚ) / ((100 : ℤ) : ℚ) * 100) := by
    have h1 := progress_hook_downloading_percent overshootProgress rfl
    rw [hev] at h1
    simp only [Option.map_some', Option.some.injEq] at h1
    rw [h1]
    norm_num [overshootProgress, pyOrInt]
  have h200 : roundTo1 (((200 : ℤ) : ℚ) / ((100 : ℤ) : ℚ) * 100) = 200 := by
    have he : ((200 : ℤ) : ℚ) / ((100 : ℤ) : ℚ) * 100 = ((200 : ℤ) : ℚ) := by
      push_cast
      norm_num
    rw [he, roundTo1_intCast]
    norm_num
  rw [hp, h200] at hb
  norm_num at hb

/-- C6 (amended): the percent of a forwarded event is 100 on the finished
event, 0 when the reported total is unknown or non-positive, and lies in
the inclusive range 0–100 whenever the payload reports a non-negative
downloaded byte count not exceeding the total; when the payload reports
more downloaded than the total, the percent can exceed 100. -/
theorem c6_percent_range (d : RawProgress) (ev : ProgressEvent)
    (hev : progress_hook d = some ev) :
    (ev.status = "completed" → ev.percent = 100)
    ∧ (d.status = "downloading" →
        pyOrInt d.total_bytes (d.total_bytes_estimate.getD 0) ≤ 0 → ev.percent = 0)
    ∧ (d.status = "downloading" →
        0 ≤ d.downloaded_bytes.getD 0 →
        d.downloaded_bytes.getD 0 ≤ pyOrInt d.total_bytes (d.total_bytes_estimate.getD 0) →
        0 ≤ ev.percent ∧ ev.percent ≤ 100) := by
  simp only [progress_hook] at hev
  by_cases hdl : d.status = "downloading"
  · rw [if_pos hdl] at hev
    simp only [Option.some.injEq] at hev
    subst hev
    refine ⟨?_, ?_, ?_⟩
    · intro hc
      have hc' : "downloading" = "completed" := hc
      exact absurd hc' (by decide)
    · intro _ hle
      show roundTo1
        (if pyOrInt d.total_bytes (d.total_bytes_estimate.getD 0) > 0
         then (d.downloaded_bytes.getD 0 : ℚ)
           / (pyOrInt d.total_bytes (d.total_bytes_estimate.getD 0) : ℚ) * 100
         else 0) = 0
      rw [if_neg (by omega)]
      exact roundTo1_zero
    · intro _ h0 hle
      show 0 ≤ roundTo1
          (if pyOrInt d.total_bytes (d.total_bytes_estimate.getD 0) > 0
           then (d.downloaded_bytes.getD 0 : ℚ)
             / (pyOrInt d.total_bytes (d.total_bytes_estimate.getD 0) : ℚ) * 100
           else 0)
        ∧ roundTo1
          (if pyOrInt d.total_bytes (d.total_bytes_estimate.getD 0) > 0
           then (d.downloaded_bytes.getD 0 : ℚ)
             / (pyOrInt d.total_bytes (d.total_bytes_estimate.getD 0) : ℚ) * 100
           else 0) ≤ 100
      by_cases hpos : pyOrInt d.total_bytes (d.total_bytes_estimate.getD 0) > 0
      · rw [if_pos hpos]
        have hT0 : (0 : ℚ) < (pyOrInt d.total_bytes (d.total_bytes_estimate.getD 0) : ℚ) := by
          exact_mod_cast hpos
        have hd0 : (0 : ℚ) ≤ (d.downloaded_bytes.getD 0 : ℚ) := by exact_mod_cast h0
        have hdle : (d.downloaded_bytes.getD 0 : ℚ)
            ≤ (pyOrInt d.total_bytes (d.total_bytes_estimate.getD 0) : ℚ) := by
          exact_mod_cast hle
        have hx0 : (0 : ℚ) ≤ (d.downloaded_bytes.getD 0 : ℚ)
            / (pyOrInt d.total_bytes (d.total_bytes_estimate.getD 0) : ℚ) * 100 := by
          have := div_nonneg hd0 (le_of_lt hT0)
          linarith
        have hx100 : (d.downloaded_bytes.getD 0 : ℚ)
            / (pyOrInt d.total_bytes (d.total_bytes_estimate.getD 0) : ℚ) * 100 ≤ 100 := by
          have hdiv : (d.downloaded_bytes.getD 0 : ℚ)
              / (pyOrInt d.total_bytes (d.total_bytes_estimate.getD 0) : ℚ) ≤ 1 :=
            (div_le_one hT0).2 hdle
          linarith
        exact ⟨roundTo1_nonneg hx0, roundTo1_le_100 hx100⟩
      · rw [if_neg hpos, roundTo1_zero]
        norm_num
  · rw [if_neg hdl] at hev
    by_cases hf : d.status = "finished"
    · rw [if_pos hf] at hev
      simp only [Option.some.injEq] at hev
      subst hev
      exact ⟨fun _ => rfl, fun hc => absurd hc hdl, fun hc => absurd hc hdl⟩
    · rw [if_neg hf] at hev
      exact absurd hev (by simp)

/-- Witness for the amended C6: the finished event carries percent 100. -/
theorem c6_witness : finishedEvent.percent = 100 :=
  (c6_percent_range finishedProgress finishedEvent rfl).1 rfl

/-! ## Claim C7 -/

/-- C7: when the engine call raises, `download` returns the error result
(`none`) instead of propagating the exception, and delivers exactly one
`error` payload carrying the underlying message to a registered observer
(and none when no observer is registered). -/
theorem c7_engine_error_handling (engine : String → Except String String)
    (fsExists : String → Bool) (url format_id download_type e : String)
    (he : engine (fix_shorts_url url) = .error e) :
    download engine fsExists url format_id download_type true
        = (none, [{ status := "error", message := "Download failed: " ++ e }])
    ∧ download engine fsExists url format_id download_type false = (none, []) := by
  constructor <;> simp [download, he]

/-- Witness for C7: a concrete engine failure. -/
theorem c7_witness :
    download (fun _ => .error "HTTP Error 403") (fun _ => false) "u" "22" "video" true
        = (none, [{ status := "error", message := "Download failed: " ++ "HTTP Error 403" }])
    ∧ download (fun _ => .error "HTTP Error 403") (fun _ => false) "u" "22" "video" false
        = (none, []) :=
  c7_engine_error_handling (fun _ => .error "HTTP Error 403") (fun _ => false)
    "u" "22" "video" "HTTP Error 403" rfl
